import Mathlib

set_option autoImplicit false

namespace Ccrd

/-- A JSON schema node: a `type` string and a map of named sub-properties,
modelled as an association list in which the first binding for a key is
the authoritative one. -/
inductive JSONSchemaProps : Type where
  | mk : String → List (String × JSONSchemaProps) → JSONSchemaProps

abbrev PropMap := List (String × JSONSchemaProps)

def JSONSchemaProps.type : JSONSchemaProps → String
  | .mk t _ => t

def JSONSchemaProps.properties : JSONSchemaProps → PropMap
  | .mk _ p => p

/-- First-match lookup in an association list, the observable read
semantics of a Go map. -/
def mapLookup {α : Type} (m : List (String × α)) (k : String) : Option α :=
  match m with
  | [] => none
  | (k1, v1) :: t => if k1 = k then some v1 else mapLookup t k

/-- Overwriting insert into an association list, the semantics of a Go
map assignment `m[k] = v`. -/
def mapInsert {α : Type} (m : List (String × α)) (k : String) (v : α) :
    List (String × α) :=
  match m with
  | [] => [(k, v)]
  | (k1, v1) :: t => if k1 = k then (k, v) :: t else (k1, v1) :: mapInsert t k v

/-- Here `oget a b` is `a` when `a` is `some`, else `b`: the value read after
layering a later map write over an earlier one. -/
def oget {α : Type} (a b : Option α) : Option α :=
  match a with
  | some v => some v
  | none => b

/-- Iterated overwriting insert: the effect of a Go
`for k, v := range layer { m[k] = v }` loop on map `m`. -/
def mergeLayer {α : Type} (m : List (String × α)) (layer : List (String × α)) :
    List (String × α) :=
  layer.foldl (fun acc p => mapInsert acc p.1 p.2) m

/-- Returns `true` iff no key occurs twice, so first-match lookup and last-binding
lookup agree. -/
def noDupKeys {α : Type} : List (String × α) → Bool
  | [] => true
  | (k, _) :: t => !(t.any (fun p => p.1 == k)) && noDupKeys t

/-! ### Go slices with explicit backing arrays

Go's `append` may write into the backing array it shares with its argument
(when spare capacity exists) or allocate a new array.  To make claims about
mutation of the input meaningful, slices of the input definition are
modelled as references `{id, len}` into a heap of backing arrays; the
observable value of a slice is the first `len` elements of its array.
Go maps written by this code are all freshly allocated inside the call, so
they are modelled as plain values. -/

/-- A heap of backing arrays, indexed by position. -/
abbrev Heap (α : Type) := List (List α)

/-- A Go slice header: backing-array id and length.  Capacity is the length
of the backing array. -/
structure SliceRef where
  id : Nat
  len : Nat
deriving DecidableEq, Repr

/-- The observable value of a slice: the first `len` elements of its
backing array. -/
def sliceView {α : Type} (h : Heap α) (s : SliceRef) : List α :=
  (h.getD s.id []).take s.len

/-- Go `append(s, xs...)`: reuse the backing array when there is spare
capacity (writing just past `s.len`), otherwise allocate a new array
holding the old elements followed by `xs`. -/
def heapAppend {α : Type} (h : Heap α) (s : SliceRef) (xs : List α) :
    Heap α × SliceRef :=
  let a := h.getD s.id []
  if s.len + xs.length ≤ a.length then
    (h.set s.id (a.take s.len ++ xs ++ a.drop (s.len + xs.length)),
     ⟨s.id, s.len + xs.length⟩)
  else
    (h ++ [a.take s.len ++ xs], ⟨h.length, s.len + xs.length⟩)

/-! ### Data model

Input and output records of `apis/apiextensions/v1alpha1/ccrd/crd.go`.
String slices (`ShortNames`, `Categories`) and printer-column slices are
heap references, since `append` is the one operation of this code that can
write into storage shared with the input. -/

/-- Go `extv1.CustomResourceDefinitionNames`: the identifying name set of a
resource, plus short names and categories. -/
structure CustomResourceDefinitionNames where
  plural : String
  singular : String
  shortNames : SliceRef
  kind : String
  listKind : String
  categories : SliceRef
deriving DecidableEq, Repr

/-- A printer-column descriptor.  This code only copies columns verbatim,
so the source's remaining fields are summarised by `name` and `jsonPath`. -/
structure PrinterColumn where
  name : String
  jsonPath : String
deriving DecidableEq, Repr

/-- The raw validation-schema bytes of a version, abstracted by what the
external JSON codec does with them: either the decoder fails with a
message, or it yields a schema document. -/
inductive RawDoc where
  | malformed (msg : String)
  | wellFormed (doc : JSONSchemaProps)

/-- Go `v1alpha1.CompositeResourceValidation`: a wrapper around the raw
OpenAPI v3 schema document. -/
structure CompositeResourceValidation where
  openAPIV3Schema : RawDoc

/-- Go `v1alpha1.CompositeResourceDefinitionVersion`. -/
structure CompositeResourceDefinitionVersion where
  name : String
  served : Bool
  referenceable : Bool
  additionalPrinterColumns : SliceRef
  schema : Option CompositeResourceValidation

/-- Go `v1alpha1.CompositeResourceDefinitionSpec` (the fields this code reads). -/
structure CompositeResourceDefinitionSpec where
  group : String
  names : CustomResourceDefinitionNames
  claimNames : Option CustomResourceDefinitionNames
  versions : List CompositeResourceDefinitionVersion

/-- Go `v1alpha1.CompositeResourceDefinition`: object metadata plus spec. -/
structure CompositeResourceDefinition where
  name : String
  labels : List (String × String)
  annotations : List (String × String)
  spec : CompositeResourceDefinitionSpec

/-- Go `extv1.ResourceScope`. -/
inductive ResourceScope where
  | clusterScoped
  | namespaceScoped
deriving DecidableEq, Repr

/-- The value-type back-reference to the source definition
(`metav1.OwnerReference` restricted to the fields this code sets). -/
structure OwnerReference where
  apiVersion : String
  kind : String
  name : String
  controller : Bool
deriving DecidableEq, Repr

/-- Go `extv1.CustomResourceDefinitionVersion` (generated output version). -/
structure CustomResourceDefinitionVersion where
  name : String
  served : Bool
  storage : Bool
  additionalPrinterColumns : SliceRef
  openAPIV3Schema : JSONSchemaProps
  subresourcesStatus : Bool

/-- Go `extv1.CustomResourceDefinitionSpec` (generated output spec). -/
structure CustomResourceDefinitionSpec where
  scope : ResourceScope
  group : String
  names : CustomResourceDefinitionNames
  versions : List CustomResourceDefinitionVersion

/-- Go `extv1.CustomResourceDefinition`: object metadata plus spec. -/
structure CustomResourceDefinition where
  name : String
  labels : List (String × String)
  annotations : List (String × String)
  ownerReferences : List OwnerReference
  spec : CustomResourceDefinitionSpec

/-- Errors built with `errors.New` / `errors.Errorf` / `errors.Wrap`
(github.com/pkg/errors): a root message or a context message over a
cause. -/
inductive CrdError where
  | new (msg : String)
  | wrap (msg : String) (cause : CrdError)
deriving DecidableEq, Repr

/-- The rendered message of an error: `errors.Wrap` prints
`"context: cause"`. -/
def CrdError.message : CrdError → String
  | .new m => m
  | .wrap m c => m ++ ": " ++ c.message

/-- The outermost context message of a returned error, if any. -/
def errTopMessage {α : Type} : Except CrdError α → Option String
  | .ok _ => none
  | .error (.new m) => some m
  | .error (.wrap m _) => some m

/-! ### Constants (crd.go lines 38-49) -/

def CategoryClaim : String := "claim"

def CategoryComposite : String := "composite"

def errGetSpecProps : String := "cannot get spec properties from validation schema"

def errParseValidation : String := "cannot parse validation schema"

def errInvalidClaimNames : String := "invalid resource claim names"

def errMissingClaimNames : String := "missing names"

/-- Message of `errors.Errorf("%q conflicts with composite resource name", n)`: the Go
`%q` verb renders the name in double quotes. -/
def errFmtConflictingClaimName (n : String) : String :=
  "\"" ++ n ++ "\"" ++ " conflicts with composite resource name"

/-! ### Synthesized tables (defined outside this excerpt) -/

/-- Modelled from the spec: `BaseProps` is defined outside this excerpt;
every generated schema starts as an object carrying a fixed minimal
property set that includes object-typed `spec` and `status` nodes. -/
def BaseProps : PropMap :=
  [("apiVersion", .mk "string" []),
   ("kind", .mk "string" []),
   ("metadata", .mk "object" []),
   ("spec", .mk "object" []),
   ("status", .mk "object" [])]

/-- Modelled from the spec: `CompositeResourceSpecProps` is defined outside
this excerpt; a fixed read-only table of synthesized standard spec
properties for the composite variant. -/
def CompositeResourceSpecProps : PropMap :=
  [("compositionRef", .mk "object" []),
   ("resourceRefs", .mk "array" []),
   ("writeConnectionSecretToRef", .mk "object" [])]

/-- Modelled from the spec: `CompositeResourceClaimSpecProps` is defined
outside this excerpt; a fixed read-only table of synthesized standard spec
properties for the claim variant. -/
def CompositeResourceClaimSpecProps : PropMap :=
  [("compositionRef", .mk "object" []),
   ("resourceRef", .mk "object" []),
   ("writeConnectionSecretToRef", .mk "object" [])]

/-- Modelled from the spec: `CompositeResourceStatusProps` is defined
outside this excerpt; the fixed read-only table of synthesized standard
status properties, shared by both variants. -/
def CompositeResourceStatusProps : PropMap :=
  [("conditions", .mk "array" []),
   ("connectionDetails", .mk "object" [])]

/-- Modelled from the spec: the fixed synthesized printer columns appended
after the caller-supplied columns on the composite path. -/
def CompositeResourcePrinterColumns : List PrinterColumn :=
  [⟨"READY", ".status.conditions"⟩,
   ⟨"COMPOSITION", ".spec.compositionRef.name"⟩]

/-- Modelled from the spec: the fixed synthesized printer columns appended
after the caller-supplied columns on the claim path. -/
def CompositeResourceClaimPrinterColumns : List PrinterColumn :=
  [⟨"READY", ".status.conditions"⟩,
   ⟨"CONNECTION-SECRET", ".spec.writeConnectionSecretToRef.name"⟩]

/-- Modelled from the spec: the owner back-reference produced by
`meta.AsController(meta.TypedReferenceTo(xrd, CompositeResourceDefinitionGroupVersionKind))`;
the group/version/kind constant is defined outside this excerpt. -/
def ownerReferenceTo (xrd : CompositeResourceDefinition) : OwnerReference :=
  ⟨"apiextensions.crossplane.io/v1alpha1", "CompositeResourceDefinition",
    xrd.name, true⟩

/-! ### Translated functions (crd.go lines 51-218) -/

/-- Go `json.Unmarshal(v.OpenAPIV3Schema.Raw, s)` through the `RawDoc`
abstraction: the external codec either fails or yields the document. -/
def jsonUnmarshal : RawDoc → Except String JSONSchemaProps
  | .malformed m => .error m
  | .wellFormed d => .ok d

/-- Function `getSpecProps` (crd.go lines 191-207): absent validation yields an
empty map; a decode failure is wrapped with `errParseValidation`; an absent
`spec` node yields an empty map; otherwise the `spec` node's properties. -/
def getSpecProps (v : Option CompositeResourceValidation) :
    Except CrdError PropMap :=
  match v with
  | none => .ok []
  | some val =>
    match jsonUnmarshal val.openAPIV3Schema with
    | .error m => .error (.wrap errParseValidation (.new m))
    | .ok s =>
      match mapLookup s.properties "spec" with
      | none => .ok []
      | some spec => .ok spec.properties

/-- Function `validateClaimNames` (crd.go lines 167-189). -/
def validateClaimNames (d : CompositeResourceDefinition) : Except CrdError Unit :=
  match d.spec.claimNames with
  | none => .error (.new errMissingClaimNames)
  | some cn =>
    if cn.kind = d.spec.names.kind then
      .error (.new (errFmtConflictingClaimName cn.kind))
    else if cn.plural = d.spec.names.plural then
      .error (.new (errFmtConflictingClaimName cn.plural))
    else if cn.singular ≠ "" ∧ cn.singular = d.spec.names.singular then
      .error (.new (errFmtConflictingClaimName cn.singular))
    else if cn.listKind ≠ "" ∧ cn.listKind = d.spec.names.listKind then
      .error (.new (errFmtConflictingClaimName cn.listKind))
    else
      .ok ()

/-- The Go statement `schema.Properties[outer].Properties[k] = v`.  Every
call site has the `outer` node present (it comes from `BaseProps`); on an
absent node Go would write into a nil map, so that case never arises and is
modelled as a no-op. -/
def setPropAt (m : PropMap) (outer k : String) (v : JSONSchemaProps) : PropMap :=
  match mapLookup m outer with
  | some node => mapInsert m outer (.mk node.type (mapInsert node.properties k v))
  | none => m

/-- One merge loop
`for k, v := range layer { schema.Properties[outer].Properties[k] = v }`. -/
def mergeUnder (m : PropMap) (outer : String) (layer : PropMap) : PropMap :=
  layer.foldl (fun acc p => setPropAt acc outer p.1 p.2) m

/-- Per-version schema assembly (crd.go lines 78-101 and 138-147): the base
object schema, then caller-parsed spec properties under `spec`, then the
synthesized spec table under `spec`, then the synthesized status table
under `status`. -/
def assembleSchema (p specTable statusTable : PropMap) : JSONSchemaProps :=
  .mk "object"
    (mergeUnder (mergeUnder (mergeUnder BaseProps "spec" p) "spec" specTable)
      "status" statusTable)

/-- The heap state threaded through a call: backing arrays of string slices
and of printer-column slices. -/
structure St where
  strs : Heap String
  pcs : Heap PrinterColumn

/-- The per-version loop shared by both entry points (crd.go lines 72-102
and 132-162): build each output version (name, served, storage from
referenceable, appended printer columns, assembled schema, status
subresource enabled); a `getSpecProps` failure aborts with the wrapped
error. -/
def projectVersions (cols : List PrinterColumn) (specTable statusTable : PropMap) :
    List CompositeResourceDefinitionVersion → Heap PrinterColumn →
    Except CrdError (List CustomResourceDefinitionVersion) × Heap PrinterColumn
  | [], pcs => (.ok [], pcs)
  | vr :: rest, pcs =>
    let ap := heapAppend pcs vr.additionalPrinterColumns cols
    match getSpecProps vr.schema with
    | .error e => (.error (.wrap errGetSpecProps e), ap.1)
    | .ok p =>
      let v : CustomResourceDefinitionVersion :=
        { name := vr.name
          served := vr.served
          storage := vr.referenceable
          additionalPrinterColumns := ap.2
          openAPIV3Schema := assembleSchema p specTable statusTable
          subresourcesStatus := true }
      match projectVersions cols specTable statusTable rest ap.1 with
      | (.error e, pcs2) => (.error e, pcs2)
      | (.ok vs, pcs2) => (.ok (v :: vs), pcs2)

/-- Function `ForCompositeResource` (crd.go lines 51-105). -/
def ForCompositeResource (xrd : CompositeResourceDefinition) (st : St) :
    Except CrdError CustomResourceDefinition × St :=
  let cat := heapAppend st.strs xrd.spec.names.categories [CategoryComposite]
  match projectVersions CompositeResourcePrinterColumns CompositeResourceSpecProps
      CompositeResourceStatusProps xrd.spec.versions st.pcs with
  | (.error e, pcs2) => (.error e, ⟨cat.1, pcs2⟩)
  | (.ok vs, pcs2) =>
    (.ok
      { name := xrd.name
        labels := xrd.labels
        annotations := xrd.annotations
        ownerReferences := [ownerReferenceTo xrd]
        spec :=
          { scope := .clusterScoped
            group := xrd.spec.group
            names := { xrd.spec.names with categories := cat.2 }
            versions := vs } },
     ⟨cat.1, pcs2⟩)

/-- The error a nil claim-name dereference would raise; reaching it would
be the Go panic at crd.go lines 118 and 123. -/
def errNilClaimNames : CrdError :=
  .new "runtime error: invalid memory address or nil pointer dereference"

/-- Function `ForCompositeResourceClaim` (crd.go lines 107-165).  After validation
the Go code dereferences `xrd.Spec.ClaimNames` unconditionally; the absent
case is modelled by the distinguished `errNilClaimNames`. -/
def ForCompositeResourceClaim (xrd : CompositeResourceDefinition) (st : St) :
    Except CrdError CustomResourceDefinition × St :=
  match validateClaimNames xrd with
  | .error e => (.error (.wrap errInvalidClaimNames e), st)
  | .ok _ =>
    match xrd.spec.claimNames with
    | none => (.error errNilClaimNames, st)
    | some cn =>
      let cat := heapAppend st.strs cn.categories [CategoryClaim]
      match projectVersions CompositeResourceClaimPrinterColumns
          CompositeResourceClaimSpecProps CompositeResourceStatusProps
          xrd.spec.versions st.pcs with
      | (.error e, pcs2) => (.error e, ⟨cat.1, pcs2⟩)
      | (.ok vs, pcs2) =>
        (.ok
          { name := cn.plural ++ "." ++ xrd.spec.group
            labels := xrd.labels
            annotations := xrd.annotations
            ownerReferences := [ownerReferenceTo xrd]
            spec :=
              { scope := .namespaceScoped
                group := xrd.spec.group
                names := { cn with categories := cat.2 }
                versions := vs } },
         ⟨cat.1, pcs2⟩)

/-- Go `extv1.Established`. -/
def Established : String := "Established"

/-- Go `extv1.ConditionTrue`. -/
def ConditionTrue : String := "True"

/-- Go `extv1.CustomResourceDefinitionCondition` (the fields this code reads). -/
structure CustomResourceDefinitionCondition where
  type : String
  status : String
deriving DecidableEq, Repr

/-- Go `extv1.CustomResourceDefinitionStatus` (the fields this code reads). -/
structure CustomResourceDefinitionStatus where
  conditions : List CustomResourceDefinitionCondition
deriving DecidableEq, Repr

/-- The loop of `IsEstablished`: return on the first condition whose type
is `Established`. -/
def isEstablishedFrom : List CustomResourceDefinitionCondition → Bool
  | [] => false
  | c :: rest =>
    if c.type = Established then c.status == ConditionTrue else isEstablishedFrom rest

/-- Function `IsEstablished` (crd.go lines 209-218). -/
def IsEstablished (s : CustomResourceDefinitionStatus) : Bool :=
  isEstablishedFrom s.conditions

/-! ### Observable value of the input definition

The input is unchanged by a call exactly when its observable value — every
field, with slices resolved through the heap — is the same before and
after. -/

/-- A name set with its slices resolved. -/
structure NamesValue where
  plural : String
  singular : String
  shortNames : List String
  kind : String
  listKind : String
  categories : List String
deriving DecidableEq, Repr

def observeNames (strs : Heap String) (n : CustomResourceDefinitionNames) :
    NamesValue :=
  ⟨n.plural, n.singular, sliceView strs n.shortNames, n.kind, n.listKind,
    sliceView strs n.categories⟩

/-- An input version with its printer-column slice resolved. -/
structure VersionValue where
  name : String
  served : Bool
  referenceable : Bool
  printerColumns : List PrinterColumn
  schema : Option CompositeResourceValidation

def observeVersion (pcs : Heap PrinterColumn)
    (vr : CompositeResourceDefinitionVersion) : VersionValue :=
  ⟨vr.name, vr.served, vr.referenceable,
    sliceView pcs vr.additionalPrinterColumns, vr.schema⟩

/-- The whole input definition with every slice resolved. -/
structure XrdValue where
  name : String
  labels : List (String × String)
  annotations : List (String × String)
  group : String
  names : NamesValue
  claimNames : Option NamesValue
  versions : List VersionValue

def observeXrd (st : St) (xrd : CompositeResourceDefinition) : XrdValue :=
  ⟨xrd.name, xrd.labels, xrd.annotations, xrd.spec.group,
    observeNames st.strs xrd.spec.names,
    xrd.spec.claimNames.map (observeNames st.strs),
    xrd.spec.versions.map (observeVersion st.pcs)⟩

/-- The string-slice references held by the input. -/
def strRefsOf (xrd : CompositeResourceDefinition) : List SliceRef :=
  [xrd.spec.names.shortNames, xrd.spec.names.categories] ++
    (match xrd.spec.claimNames with
     | none => []
     | some cn => [cn.shortNames, cn.categories])

/-- The printer-column slice references held by the input. -/
def pcRefsOf (xrd : CompositeResourceDefinition) : List SliceRef :=
  xrd.spec.versions.map (fun vr => vr.additionalPrinterColumns)

/-- The input's slices are live and unaliased: every reference points below
the heap end, and two references into the same array are the same
reference.  This is how any definition built from independently allocated
slices (for example one decoded from serialized form) looks. -/
def RefsSeparated (st : St) (xrd : CompositeResourceDefinition) : Prop :=
  (∀ r ∈ strRefsOf xrd, r.id < st.strs.length) ∧
  (∀ r ∈ strRefsOf xrd, ∀ r2 ∈ strRefsOf xrd, r.id = r2.id → r = r2) ∧
  (∀ r ∈ pcRefsOf xrd, r.id < st.pcs.length) ∧
  (∀ r ∈ pcRefsOf xrd, ∀ r2 ∈ pcRefsOf xrd, r.id = r2.id → r = r2)

instance (st : St) (xrd : CompositeResourceDefinition) :
    Decidable (RefsSeparated st xrd) := by
  unfold RefsSeparated
  infer_instance

/-! ### Sample inputs used to evaluate the theorems on concrete data -/

def sampleNames : CustomResourceDefinitionNames :=
  ⟨"compositeresources", "compositeresource", ⟨0, 1⟩, "CompositeResource",
    "CompositeResourceList", ⟨1, 1⟩⟩

def sampleClaimNames : CustomResourceDefinitionNames :=
  ⟨"resourceclaims", "resourceclaim", ⟨2, 1⟩, "ResourceClaim",
    "ResourceClaimList", ⟨3, 1⟩⟩

/-- A well-formed raw schema whose `spec` subtree declares a caller field
`replicas` and a field `compositionRef` that collides with the synthesized
spec table. -/
def sampleSchema : RawDoc :=
  .wellFormed (.mk "object"
    [("spec", .mk "object"
      [("replicas", .mk "integer" []),
       ("compositionRef", .mk "string" [])])])

def sampleVersion : CompositeResourceDefinitionVersion :=
  ⟨"v1alpha1", true, true, ⟨0, 1⟩, some ⟨sampleSchema⟩⟩

def sampleXrd : CompositeResourceDefinition :=
  ⟨"compositeresources.example.org", [("app", "demo")], [("note", "x")],
    ⟨"example.org", sampleNames, some sampleClaimNames, [sampleVersion]⟩⟩

def sampleSt : St :=
  ⟨[["sn"], ["extra"], ["csn"], ["teams"]], [[⟨"AGE", ".metadata"⟩]]⟩

/-- A malformed raw schema. -/
def badVersion : CompositeResourceDefinitionVersion :=
  ⟨"v2", true, false, ⟨0, 0⟩, some ⟨.malformed "unexpected end of JSON input"⟩⟩

/-- A definition with distinct claim names but a malformed version schema. -/
def badSchemaXrd : CompositeResourceDefinition :=
  ⟨"compositeresources.example.org", [], [],
    ⟨"example.org", sampleNames, some sampleClaimNames, [badVersion]⟩⟩

/-- A definition with no claim names and a malformed version schema. -/
def noClaimXrd : CompositeResourceDefinition :=
  ⟨"compositeresources.example.org", [], [],
    ⟨"example.org", sampleNames, none, [badVersion]⟩⟩

def emptySt : St := ⟨[], []⟩

/-- Predicate `strContains s pat` holds iff `pat` occurs contiguously inside `s`. -/
def strContains (s pat : String) : Prop :=
  pat.data <:+: s.data

instance (s pat : String) : Decidable (strContains s pat) := by
  unfold strContains
  infer_instance

/-- The property map of the node stored at key `outer` of a schema
(empty when the node is absent). -/
def propsUnder (s : JSONSchemaProps) (outer : String) : PropMap :=
  JSONSchemaProps.properties ((mapLookup s.properties outer).getD (.mk "object" []))

/-- A name set whose kind collides with `conflictClaimNames`. -/
def conflictNames : CustomResourceDefinitionNames :=
  ⟨"xdatabases", "xdatabase", ⟨0, 0⟩, "XDatabase", "XDatabaseList", ⟨0, 0⟩⟩

/-- A claim name set sharing its kind with the composite names. -/
def conflictClaimNames : CustomResourceDefinitionNames :=
  ⟨"claimeddbs", "claimeddb", ⟨0, 0⟩, "XDatabase", "ClaimedDBList", ⟨0, 0⟩⟩

/-- A definition whose claim kind equals its composite kind. -/
def conflictXrd : CompositeResourceDefinition :=
  ⟨"xdatabases.example.org", [], [],
    ⟨"example.org", conflictNames, some conflictClaimNames, []⟩⟩

/-- A throwaway output record (never reached by the sample evaluations). -/
def dummyCrd : CustomResourceDefinition :=
  ⟨"", [], [], [],
    ⟨.clusterScoped, "", ⟨"", "", ⟨0, 0⟩, "", "", ⟨0, 0⟩⟩, []⟩⟩

/-- The output that `ForCompositeResource` produces on the sample input. -/
def sampleOut : CustomResourceDefinition :=
  match (ForCompositeResource sampleXrd sampleSt).1 with
  | .ok crd => crd
  | .error _ => dummyCrd

/-- The output that `ForCompositeResourceClaim` produces on the sample
input. -/
def sampleClaimOut : CustomResourceDefinition :=
  match (ForCompositeResourceClaim sampleXrd sampleSt).1 with
  | .ok crd => crd
  | .error _ => dummyCrd

/-- Two versions with the same name, both referenceable: the generator
performs no uniqueness or single-storage check. -/
def dupXrd : CompositeResourceDefinition :=
  ⟨"compositeresources.example.org", [], [],
    ⟨"example.org", sampleNames, some sampleClaimNames,
      [⟨"v1", true, true, ⟨0, 0⟩, none⟩,
       ⟨"v1", false, true, ⟨0, 0⟩, none⟩]⟩⟩

/-- The output that `ForCompositeResource` produces on `dupXrd`. -/
def dupOut : CustomResourceDefinition :=
  match (ForCompositeResource dupXrd emptySt).1 with
  | .ok crd => crd
  | .error _ => dummyCrd

/-! ### Theorems -/

@[simp] theorem oget_none {α : Type} (b : Option α) : oget none b = b := rfl

@[simp] theorem oget_some {α : Type} (v : α) (b : Option α) :
    oget (some v) b = some v := rfl

theorem mapLookup_insert {α : Type} (m : List (String × α)) (k : String) (v : α)
    (k2 : String) :
    mapLookup (mapInsert m k v) k2 = if k = k2 then some v else mapLookup m k2 := by
  induction m with
  | nil =>
    simp [mapInsert, mapLookup]
  | cons hd t ih =>
    obtain ⟨k1, v1⟩ := hd
    by_cases h1 : k1 = k
    · subst h1
      simp only [mapInsert, if_pos rfl]
      by_cases h2 : k1 = k2
      · simp [mapLookup, if_pos h2, h2]
      · simp [mapLookup, if_neg h2]
    · simp only [mapInsert, if_neg h1]
      by_cases h2 : k1 = k2
      · subst h2
        have hne : ¬ k = k1 := fun h => h1 h.symm
        simp [mapLookup, hne]
      · simp [mapLookup, if_neg h2, ih]

theorem mapLookup_append {α : Type} (a b : List (String × α)) (k : String) :
    mapLookup (a ++ b) k = oget (mapLookup a k) (mapLookup b k) := by
  induction a with
  | nil => simp [mapLookup]
  | cons h t ih =>
    obtain ⟨k1, v1⟩ := h
    by_cases h1 : k1 = k
    · simp [mapLookup, if_pos h1]
    · simp [mapLookup, if_neg h1, ih]

theorem mapLookup_mergeLayer {α : Type} (layer m : List (String × α)) (k : String) :
    mapLookup (mergeLayer m layer) k =
      oget (mapLookup layer.reverse k) (mapLookup m k) := by
  induction layer generalizing m with
  | nil => simp [mergeLayer, mapLookup]
  | cons h t ih =>
    obtain ⟨k1, v1⟩ := h
    simp only [mergeLayer, List.foldl_cons, List.reverse_cons]
    rw [show (t.foldl (fun acc p => mapInsert acc p.1 p.2) (mapInsert m k1 v1)) =
          mergeLayer (mapInsert m k1 v1) t from rfl]
    rw [ih, mapLookup_append, mapLookup_insert]
    cases hl : mapLookup t.reverse k with
    | some v => simp [oget]
    | none =>
      simp only [oget]
      by_cases hk : k1 = k
      · simp [mapLookup, if_pos hk]
      · simp [mapLookup, if_neg hk]

theorem mapLookup_eq_none_of_not_mem {α : Type} (m : List (String × α)) (k : String)
    (h : m.all (fun p => p.1 ≠ k)) : mapLookup m k = none := by
  induction m with
  | nil => rfl
  | cons hd t ih =>
    obtain ⟨k1, v1⟩ := hd
    simp only [List.all_cons, Bool.and_eq_true, decide_eq_true_eq] at h
    simp [mapLookup, if_neg h.1, ih h.2]

theorem mapLookup_reverse_of_noDup {α : Type} (m : List (String × α)) (k : String)
    (h : noDupKeys m = true) : mapLookup m.reverse k = mapLookup m k := by
  induction m with
  | nil => rfl
  | cons hd t ih =>
    obtain ⟨k1, v1⟩ := hd
    simp only [noDupKeys, Bool.and_eq_true, Bool.not_eq_true'] at h
    rw [List.reverse_cons, mapLookup_append]
    by_cases hk : k1 = k
    · subst hk
      have hnone : mapLookup t.reverse k1 = none := by
        rw [ih h.2]
        apply mapLookup_eq_none_of_not_mem
        rw [List.all_eq_true]
        intro p hp
        simp only [decide_eq_true_eq]
        intro hc
        have : t.any (fun p => p.1 == k1) = true := by
          rw [List.any_eq_true]
          exact ⟨p, hp, by simp [hc]⟩
        rw [h.1] at this
        exact Bool.false_ne_true this
      rw [hnone]
      simp [mapLookup]
    · rw [ih h.2]
      cases hl : mapLookup t k with
      | some v => simp [oget, mapLookup, if_neg hk, hl]
      | none => simp [oget, mapLookup, if_neg hk, hl]

theorem sliceView_heapAppend {α : Type} (h : Heap α) (s : SliceRef) (xs : List α) :
    sliceView (heapAppend h s xs).1 (heapAppend h s xs).2 =
      sliceView h s ++ xs := by
  obtain ⟨sid, slen⟩ := s
  simp only [heapAppend, sliceView]
  split
  next hc =>
    dsimp only
    simp only [List.getD_eq_getElem?_getD] at hc ⊢
    by_cases hsid : sid < h.length
    · rw [List.getElem?_set_self hsid, Option.getD_some]
      have hslen : slen ≤ (h[sid]?.getD []).length := by omega
      have hX : ((h[sid]?.getD []).take slen ++ xs).length = slen + xs.length := by
        simp [Nat.min_eq_left hslen]
      rw [List.take_left' hX]
    · have ha : h[sid]?.getD [] = ([] : List α) := by
        rw [List.getElem?_eq_none (by omega)]
        rfl
      rw [ha] at hc
      simp only [List.length_nil, Nat.le_zero, Nat.add_eq_zero] at hc
      obtain ⟨h1, h2⟩ := hc
      rw [h1, List.length_eq_zero.mp h2, ha]
      simp
  next hc =>
    dsimp only
    simp only [List.getD_eq_getElem?_getD] at hc ⊢
    have hget : (h ++ [(h[sid]?.getD []).take slen ++ xs])[h.length]?.getD ([] : List α) =
        (h[sid]?.getD []).take slen ++ xs := by
      rw [List.getElem?_append_right (le_refl _)]
      simp
    rw [hget]
    apply List.take_of_length_le
    simp only [List.length_append, List.length_take]
    omega

/-- A single append leaves unchanged the view of any slice that is either
into a different live array, or into the same array but no longer than the
appended slice. -/
theorem sliceView_heapAppend_frame {α : Type} (h : Heap α) (s : SliceRef)
    (xs : List α) (t : SliceRef)
    (hvalid : t.id < h.length)
    (hsep : t.id ≠ s.id ∨ t.len ≤ s.len) :
    sliceView (heapAppend h s xs).1 t = sliceView h t := by
  obtain ⟨sid, slen⟩ := s
  obtain ⟨tid, tlen⟩ := t
  simp only at hvalid hsep
  simp only [heapAppend, sliceView]
  split
  next hc =>
    dsimp only
    simp only [List.getD_eq_getElem?_getD] at hc ⊢
    by_cases hid : tid = sid
    · subst hid
      have htlen : tlen ≤ slen := by
        rcases hsep with hne | hle
        · exact absurd rfl hne
        · exact hle
      have hslen : slen ≤ (h[tid]?.getD []).length := by omega
      rw [List.getElem?_set_self hvalid, Option.getD_some,
        List.take_append_of_le_length
          (by simp only [List.length_append, List.length_take]; omega),
        List.take_append_of_le_length
          (by simp only [List.length_take]; omega),
        List.take_take, Nat.min_eq_left htlen]
    · rw [List.getElem?_set_ne (fun h => hid h.symm)]
  next hc =>
    dsimp only
    simp only [List.getD_eq_getElem?_getD]
    rw [List.getElem?_append_left hvalid]

theorem heapAppend_length_le {α : Type} (h : Heap α) (s : SliceRef) (xs : List α) :
    h.length ≤ (heapAppend h s xs).1.length := by
  simp only [heapAppend]
  split
  · simp
  · simp

theorem projectVersions_snd (cols : List PrinterColumn) (sT stT : PropMap)
    (vr : CompositeResourceDefinitionVersion)
    (rest : List CompositeResourceDefinitionVersion) (pcs : Heap PrinterColumn) :
    (projectVersions cols sT stT (vr :: rest) pcs).2 =
      match getSpecProps vr.schema with
      | .error _ => (heapAppend pcs vr.additionalPrinterColumns cols).1
      | .ok _ =>
        (projectVersions cols sT stT rest
          (heapAppend pcs vr.additionalPrinterColumns cols).1).2 := by
  cases hgs : getSpecProps vr.schema with
  | error e => simp only [projectVersions, hgs]
  | ok p =>
    simp only [projectVersions, hgs]
    rcases hrec : projectVersions cols sT stT rest
      (heapAppend pcs vr.additionalPrinterColumns cols).1 with ⟨res, pcs2⟩
    cases res <;> simp [hrec]

theorem projectVersions_length_le (cols : List PrinterColumn) (sT stT : PropMap)
    (vrs : List CompositeResourceDefinitionVersion) (pcs : Heap PrinterColumn) :
    pcs.length ≤ (projectVersions cols sT stT vrs pcs).2.length := by
  induction vrs generalizing pcs with
  | nil => exact le_refl _
  | cons vr rest ih =>
    rw [projectVersions_snd]
    cases hgs : getSpecProps vr.schema with
    | error e => exact heapAppend_length_le _ _ _
    | ok p =>
      exact le_trans (heapAppend_length_le _ _ _) (ih _)

/-- The per-version loop leaves unchanged the view of any live slice that
is unaliased with (or no longer than) every version's column slice. -/
theorem projectVersions_frame (cols : List PrinterColumn) (sT stT : PropMap)
    (vrs : List CompositeResourceDefinitionVersion) (pcs : Heap PrinterColumn)
    (t : SliceRef) (hvalid : t.id < pcs.length)
    (hsep : ∀ vr ∈ vrs, t.id ≠ vr.additionalPrinterColumns.id ∨
      t.len ≤ vr.additionalPrinterColumns.len) :
    sliceView (projectVersions cols sT stT vrs pcs).2 t = sliceView pcs t := by
  induction vrs generalizing pcs with
  | nil => rfl
  | cons vr rest ih =>
    have hsep1 := hsep vr (List.mem_cons_self _ _)
    have hframe := sliceView_heapAppend_frame pcs vr.additionalPrinterColumns
      cols t hvalid hsep1
    have hlen := heapAppend_length_le pcs vr.additionalPrinterColumns cols
    rw [projectVersions_snd]
    cases hgs : getSpecProps vr.schema with
    | error e => exact hframe
    | ok p =>
      rw [ih _ (by omega) (fun v hv => hsep v (List.mem_cons_of_mem _ hv))]
      exact hframe

/-- Resolved values agree whenever the two states agree on the views of
every slice the input holds. -/
theorem observeXrd_congr (st st2 : St) (xrd : CompositeResourceDefinition)
    (hstr : ∀ r ∈ strRefsOf xrd, sliceView st2.strs r = sliceView st.strs r)
    (hpc : ∀ r ∈ pcRefsOf xrd, sliceView st2.pcs r = sliceView st.pcs r) :
    observeXrd st2 xrd = observeXrd st xrd := by
  have hshort : xrd.spec.names.shortNames ∈ strRefsOf xrd := by
    simp [strRefsOf]
  have hcat : xrd.spec.names.categories ∈ strRefsOf xrd := by
    simp [strRefsOf]
  unfold observeXrd
  congr 1
  · unfold observeNames
    rw [hstr _ hshort, hstr _ hcat]
  · cases hcn : xrd.spec.claimNames with
    | none => rfl
    | some cn =>
      have h1 : cn.shortNames ∈ strRefsOf xrd := by
        simp [strRefsOf, hcn]
      have h2 : cn.categories ∈ strRefsOf xrd := by
        simp [strRefsOf, hcn]
      simp only [Option.map_some']
      unfold observeNames
      rw [hstr _ h1, hstr _ h2]
  · apply List.map_congr_left
    intro vr hvr
    unfold observeVersion
    rw [hpc _ (List.mem_map_of_mem _ hvr)]

/-! ### Shape of the returned state -/

theorem ForCompositeResource_snd (xrd : CompositeResourceDefinition) (st : St) :
    (ForCompositeResource xrd st).2 =
      ⟨(heapAppend st.strs xrd.spec.names.categories [CategoryComposite]).1,
       (projectVersions CompositeResourcePrinterColumns CompositeResourceSpecProps
         CompositeResourceStatusProps xrd.spec.versions st.pcs).2⟩ := by
  rcases h : projectVersions CompositeResourcePrinterColumns CompositeResourceSpecProps
    CompositeResourceStatusProps xrd.spec.versions st.pcs with ⟨res, pcs2⟩
  cases res <;> simp [ForCompositeResource, h]

theorem ForCompositeResourceClaim_snd_invalid (xrd : CompositeResourceDefinition)
    (st : St) (e : CrdError) (hval : validateClaimNames xrd = .error e) :
    (ForCompositeResourceClaim xrd st).2 = st := by
  simp [ForCompositeResourceClaim, hval]

theorem ForCompositeResourceClaim_snd_ok (xrd : CompositeResourceDefinition)
    (st : St) (cn : CustomResourceDefinitionNames)
    (hval : validateClaimNames xrd = .ok ())
    (hcn : xrd.spec.claimNames = some cn) :
    (ForCompositeResourceClaim xrd st).2 =
      ⟨(heapAppend st.strs cn.categories [CategoryClaim]).1,
       (projectVersions CompositeResourceClaimPrinterColumns
         CompositeResourceClaimSpecProps CompositeResourceStatusProps
         xrd.spec.versions st.pcs).2⟩ := by
  rcases h : projectVersions CompositeResourceClaimPrinterColumns
    CompositeResourceClaimSpecProps CompositeResourceStatusProps
    xrd.spec.versions st.pcs with ⟨res, pcs2⟩
  cases res <;> simp [ForCompositeResourceClaim, hval, hcn, h]

/-! ### Preservation of the input under separation -/

theorem strs_preserved_of_sep (st : St) (xrd : CompositeResourceDefinition)
    (hsep : RefsSeparated st xrd) (catRef : SliceRef) (xs : List String)
    (hmem : catRef ∈ strRefsOf xrd) (r : SliceRef) (hr : r ∈ strRefsOf xrd) :
    sliceView (heapAppend st.strs catRef xs).1 r = sliceView st.strs r := by
  apply sliceView_heapAppend_frame
  · exact hsep.1 r hr
  · by_cases hid : r.id = catRef.id
    · right
      rw [hsep.2.1 r hr catRef hmem hid]
    · left
      exact hid

theorem pcs_preserved_of_sep (st : St) (xrd : CompositeResourceDefinition)
    (hsep : RefsSeparated st xrd) (cols : List PrinterColumn) (sT stT : PropMap)
    (r : SliceRef) (hr : r ∈ pcRefsOf xrd) :
    sliceView (projectVersions cols sT stT xrd.spec.versions st.pcs).2 r =
      sliceView st.pcs r := by
  apply projectVersions_frame
  · exact hsep.2.2.1 r hr
  · intro vr hvr
    have hmem : vr.additionalPrinterColumns ∈ pcRefsOf xrd :=
      List.mem_map_of_mem _ hvr
    by_cases hid : r.id = vr.additionalPrinterColumns.id
    · right
      rw [hsep.2.2.2 r hr _ hmem hid]
    · left
      exact hid

/-- C2: neither `ForCompositeResource` nor `ForCompositeResourceClaim`
mutates any part of the input definition: when the input's slices are live
and unaliased, the observable value of the input (name, labels,
annotations, group, both name sets, and every version with its printer
columns and schema) after either call equals its value before the call. -/
theorem C2_input_not_mutated (xrd : CompositeResourceDefinition) (st : St)
    (hsep : RefsSeparated st xrd) :
    observeXrd (ForCompositeResource xrd st).2 xrd = observeXrd st xrd ∧
    observeXrd (ForCompositeResourceClaim xrd st).2 xrd = observeXrd st xrd := by
  have hcatmem : xrd.spec.names.categories ∈ strRefsOf xrd := by
    simp [strRefsOf]
  constructor
  · rw [ForCompositeResource_snd]
    apply observeXrd_congr
    · intro r hr
      exact strs_preserved_of_sep st xrd hsep _ _ hcatmem r hr
    · intro r hr
      exact pcs_preserved_of_sep st xrd hsep _ _ _ r hr
  · cases hval : validateClaimNames xrd with
    | error e =>
      rw [ForCompositeResourceClaim_snd_invalid xrd st e hval]
    | ok u =>
      cases u
      cases hcn : xrd.spec.claimNames with
      | none =>
        have : (ForCompositeResourceClaim xrd st).2 = st := by
          simp [ForCompositeResourceClaim, hval, hcn]
        rw [this]
      | some cn =>
        have hmem : cn.categories ∈ strRefsOf xrd := by
          simp [strRefsOf, hcn]
        rw [ForCompositeResourceClaim_snd_ok xrd st cn hval hcn]
        apply observeXrd_congr
        · intro r hr
          exact strs_preserved_of_sep st xrd hsep _ _ hmem r hr
        · intro r hr
          exact pcs_preserved_of_sep st xrd hsep _ _ _ r hr

/-- Witness for C2 at a concrete separated input. -/
theorem C2_input_not_mutated_witness :
    RefsSeparated sampleSt sampleXrd ∧
    (observeXrd (ForCompositeResource sampleXrd sampleSt).2 sampleXrd =
        observeXrd sampleSt sampleXrd ∧
      observeXrd (ForCompositeResourceClaim sampleXrd sampleSt).2 sampleXrd =
        observeXrd sampleSt sampleXrd) :=
  ⟨by decide, C2_input_not_mutated sampleXrd sampleSt (by decide)⟩

/-! ### Establishment checking -/

theorem isEstablishedFrom_iff (l : List CustomResourceDefinitionCondition) :
    isEstablishedFrom l = true ↔
      ∃ pre c post, l = pre ++ c :: post ∧
        (∀ c2 ∈ pre, c2.type ≠ Established) ∧
        c.type = Established ∧ c.status = ConditionTrue := by
  induction l with
  | nil =>
    constructor
    · intro h
      simp [isEstablishedFrom] at h
    · rintro ⟨pre, c, post, h, -⟩
      cases pre <;> simp at h
  | cons c rest ih =>
    by_cases hc : c.type = Established
    · simp only [isEstablishedFrom, if_pos hc, beq_iff_eq]
      constructor
      · intro h
        exact ⟨[], c, rest, rfl, by simp, hc, h⟩
      · rintro ⟨pre, c2, post, heq, hall, htype, hstat⟩
        cases pre with
        | nil =>
          simp only [List.nil_append, List.cons.injEq] at heq
          rw [heq.1, hstat]
        | cons p pre2 =>
          simp only [List.cons_append, List.cons.injEq] at heq
          exact absurd hc (by rw [heq.1]; exact hall p (List.mem_cons_self _ _))
    · simp only [isEstablishedFrom, if_neg hc]
      rw [ih]
      constructor
      · rintro ⟨pre, c2, post, heq, hall, htype, hstat⟩
        refine ⟨c :: pre, c2, post, by rw [heq, List.cons_append], ?_, htype, hstat⟩
        intro x hx
        rcases List.mem_cons.mp hx with hx1 | hx2
        · rw [hx1]; exact hc
        · exact hall x hx2
      · rintro ⟨pre, c2, post, heq, hall, htype, hstat⟩
        cases pre with
        | nil =>
          simp only [List.nil_append, List.cons.injEq] at heq
          exact absurd (heq.1 ▸ htype) hc
        | cons p pre2 =>
          simp only [List.cons_append, List.cons.injEq] at heq
          exact ⟨pre2, c2, post, heq.2, fun x hx => hall x (List.mem_cons_of_mem _ hx),
            htype, hstat⟩

/-- C3: `IsEstablished` returns true exactly when the first condition whose
type is `Established` has status `True`; it returns false when no such
condition exists — in particular on an empty condition list — and when the
first `Established` condition has any other status. -/
theorem C3_isEstablished_first_match (s : CustomResourceDefinitionStatus) :
    (IsEstablished s = true ↔
      ∃ pre c post, s.conditions = pre ++ c :: post ∧
        (∀ c2 ∈ pre, c2.type ≠ Established) ∧
        c.type = Established ∧ c.status = ConditionTrue) ∧
    IsEstablished ⟨[]⟩ = false := by
  exact ⟨isEstablishedFrom_iff s.conditions, rfl⟩

/-! ### Claim-name validation -/

theorem conflict_ne_missing (n : String) :
    errFmtConflictingClaimName n ≠ errMissingClaimNames := by
  intro h
  have hlen := congrArg String.length h
  have h1 : ("\"" : String).length = 1 := rfl
  have h2 : (" conflicts with composite resource name" : String).length = 39 := rfl
  have h3 : (errMissingClaimNames : String).length = 13 := rfl
  simp only [errFmtConflictingClaimName, String.length_append, h1, h2, h3] at hlen
  omega

/-- C5: claim-name validation fails with the missing-names error exactly
when no claim name set is present; otherwise it checks, in order and
stopping at the first violation, kind, plural, then singular (only when
non-empty), then listKind (only when non-empty), failing with the conflict
error for the first matching value and succeeding when none match.  It is
a pure function of its argument. -/
theorem C5_validateClaimNames_order (d : CompositeResourceDefinition) :
    (validateClaimNames d = .error (.new errMissingClaimNames) ↔
      d.spec.claimNames = none) ∧
    (∀ cn, d.spec.claimNames = some cn →
      ((cn.kind = d.spec.names.kind →
        validateClaimNames d =
          .error (.new (errFmtConflictingClaimName cn.kind))) ∧
      (cn.kind ≠ d.spec.names.kind → cn.plural = d.spec.names.plural →
        validateClaimNames d =
          .error (.new (errFmtConflictingClaimName cn.plural))) ∧
      (cn.kind ≠ d.spec.names.kind → cn.plural ≠ d.spec.names.plural →
        cn.singular ≠ "" → cn.singular = d.spec.names.singular →
        validateClaimNames d =
          .error (.new (errFmtConflictingClaimName cn.singular))) ∧
      (cn.kind ≠ d.spec.names.kind → cn.plural ≠ d.spec.names.plural →
        ¬(cn.singular ≠ "" ∧ cn.singular = d.spec.names.singular) →
        cn.listKind ≠ "" → cn.listKind = d.spec.names.listKind →
        validateClaimNames d =
          .error (.new (errFmtConflictingClaimName cn.listKind))) ∧
      (cn.kind ≠ d.spec.names.kind → cn.plural ≠ d.spec.names.plural →
        ¬(cn.singular ≠ "" ∧ cn.singular = d.spec.names.singular) →
        ¬(cn.listKind ≠ "" ∧ cn.listKind = d.spec.names.listKind) →
        validateClaimNames d = .ok ()))) := by
  constructor
  · constructor
    · intro h
      cases hcn : d.spec.claimNames with
      | none => rfl
      | some cn =>
        simp only [validateClaimNames, hcn] at h
        split_ifs at h with h1 h2 h3 h4
        · exact absurd (by simpa using h) (conflict_ne_missing cn.kind)
        · exact absurd (by simpa using h) (conflict_ne_missing cn.plural)
        · exact absurd (by simpa using h) (conflict_ne_missing cn.singular)
        · exact absurd (by simpa using h) (conflict_ne_missing cn.listKind)
    · intro h
      simp only [validateClaimNames, h]
  · intro cn hcn
    refine ⟨?_, ?_, ?_, ?_, ?_⟩
    · intro h1
      simp only [validateClaimNames, hcn]
      rw [if_pos h1]
    · intro h1 h2
      simp only [validateClaimNames, hcn]
      rw [if_neg h1, if_pos h2]
    · intro h1 h2 h3 h4
      simp only [validateClaimNames, hcn]
      rw [if_neg h1, if_neg h2, if_pos ⟨h3, h4⟩]
    · intro h1 h2 h3 h4 h5
      simp only [validateClaimNames, hcn]
      rw [if_neg h1, if_neg h2, if_neg h3, if_pos ⟨h4, h5⟩]
    · intro h1 h2 h3 h4
      simp only [validateClaimNames, hcn]
      rw [if_neg h1, if_neg h2, if_neg h3, if_neg h4]

/-- Witness for C5: the sample with colliding kind fails with that kind's
conflict error, and the fully distinct sample validates. -/
theorem C5_validateClaimNames_order_witness :
    validateClaimNames conflictXrd =
      .error (.new (errFmtConflictingClaimName "XDatabase")) :=
  (((C5_validateClaimNames_order conflictXrd).2 conflictClaimNames rfl).1) rfl

theorem strContains_conflict (n : String) :
    strContains (errFmtConflictingClaimName n) n := by
  refine ⟨"\"".data, ("\"" ++ " conflicts with composite resource name").data, ?_⟩
  simp [errFmtConflictingClaimName, strContains, String.data_append]

/-- C4 fails on the code as stated: the kind-conflict message on
`conflictXrd` is `"XDatabase" conflicts with composite resource name`,
which contains the offending value but none of the field names `kind`,
`plural`, `singular`, `listKind`. -/
theorem C4_counterexample :
    validateClaimNames conflictXrd =
      .error (.new (errFmtConflictingClaimName "XDatabase")) ∧
    strContains
      (CrdError.new (errFmtConflictingClaimName "XDatabase")).message "XDatabase" ∧
    ¬ strContains
      (CrdError.new (errFmtConflictingClaimName "XDatabase")).message "kind" ∧
    ¬ strContains
      (CrdError.new (errFmtConflictingClaimName "XDatabase")).message "plural" ∧
    ¬ strContains
      (CrdError.new (errFmtConflictingClaimName "XDatabase")).message "singular" ∧
    ¬ strContains
      (CrdError.new (errFmtConflictingClaimName "XDatabase")).message "listKind" :=
  ⟨rfl, by decide, by decide, by decide, by decide, by decide⟩

/-- C4 amended: every claim-name conflict error carries the message built
from the offending value, and that message contains the offending value
(the offending field name is not part of the message). -/
theorem C4_conflict_message_has_value (d : CompositeResourceDefinition)
    (e : CrdError) (herr : validateClaimNames d = .error e)
    (hne : e ≠ .new errMissingClaimNames) :
    ∃ cn n, d.spec.claimNames = some cn ∧
      (n = cn.kind ∨ n = cn.plural ∨ n = cn.singular ∨ n = cn.listKind) ∧
      e = .new (errFmtConflictingClaimName n) ∧
      strContains e.message n := by
  cases hcn : d.spec.claimNames with
  | none =>
    simp only [validateClaimNames, hcn] at herr
    exact absurd (Except.error.inj herr).symm hne
  | some cn =>
    simp only [validateClaimNames, hcn] at herr
    split_ifs at herr with h1 h2 h3 h4
    · obtain rfl : e = .new (errFmtConflictingClaimName cn.kind) :=
        (Except.error.inj herr).symm
      exact ⟨cn, cn.kind, rfl, Or.inl rfl, rfl, strContains_conflict cn.kind⟩
    · obtain rfl : e = .new (errFmtConflictingClaimName cn.plural) :=
        (Except.error.inj herr).symm
      exact ⟨cn, cn.plural, rfl, Or.inr (Or.inl rfl), rfl,
        strContains_conflict cn.plural⟩
    · obtain rfl : e = .new (errFmtConflictingClaimName cn.singular) :=
        (Except.error.inj herr).symm
      exact ⟨cn, cn.singular, rfl, Or.inr (Or.inr (Or.inl rfl)), rfl,
        strContains_conflict cn.singular⟩
    · obtain rfl : e = .new (errFmtConflictingClaimName cn.listKind) :=
        (Except.error.inj herr).symm
      exact ⟨cn, cn.listKind, rfl, Or.inr (Or.inr (Or.inr rfl)), rfl,
        strContains_conflict cn.listKind⟩

/-- Witness for the amended C4 on the concrete kind-conflict input. -/
theorem C4_conflict_message_has_value_witness :
    ∃ cn n, conflictXrd.spec.claimNames = some cn ∧
      (n = cn.kind ∨ n = cn.plural ∨ n = cn.singular ∨ n = cn.listKind) ∧
      CrdError.new (errFmtConflictingClaimName "XDatabase") =
        .new (errFmtConflictingClaimName n) ∧
      strContains
        (CrdError.new (errFmtConflictingClaimName "XDatabase")).message n :=
  C4_conflict_message_has_value conflictXrd
    (.new (errFmtConflictingClaimName "XDatabase")) rfl (by decide)

/-! ### Schema parsing -/

/-- C9: `getSpecProps` returns an empty tree without error when the raw
schema is absent or when the decoded document has no
`properties.spec.properties` path, returns that subtree when present, and
returns the wrapped decode failure exactly when a raw schema is present
but malformed. -/
theorem C9_getSpecProps_empty_or_error (v : Option CompositeResourceValidation) :
    (v = none → getSpecProps v = .ok []) ∧
    (∀ doc, v = some ⟨.wellFormed doc⟩ → mapLookup doc.properties "spec" = none →
      getSpecProps v = .ok []) ∧
    (∀ doc sp, v = some ⟨.wellFormed doc⟩ →
      mapLookup doc.properties "spec" = some sp →
      getSpecProps v = .ok sp.properties) ∧
    (∀ m, v = some ⟨.malformed m⟩ →
      getSpecProps v = .error (.wrap errParseValidation (.new m))) ∧
    ((∃ e, getSpecProps v = .error e) ↔ ∃ m, v = some ⟨.malformed m⟩) := by
  refine ⟨?_, ?_, ?_, ?_, ?_, ?_⟩
  · intro h
    rw [h]
    rfl
  · intro doc hv hl
    rw [hv]
    simp only [getSpecProps, jsonUnmarshal]
    rw [hl]
  · intro doc sp hv hl
    rw [hv]
    simp only [getSpecProps, jsonUnmarshal]
    rw [hl]
  · intro m hv
    rw [hv]
    rfl
  · rintro ⟨e, he⟩
    cases v with
    | none => simp [getSpecProps] at he
    | some val =>
      obtain ⟨raw⟩ := val
      cases raw with
      | malformed m => exact ⟨m, rfl⟩
      | wellFormed doc =>
        simp only [getSpecProps, jsonUnmarshal] at he
        cases hl : mapLookup doc.properties "spec" with
        | none =>
          rw [hl] at he
          exact Except.noConfusion he
        | some sp =>
          rw [hl] at he
          exact Except.noConfusion he
  · rintro ⟨m, hv⟩
    rw [hv]
    exact ⟨.wrap errParseValidation (.new m), rfl⟩

/-- Witness for C9: the sample version's schema decodes to its two
caller-declared spec properties. -/
theorem C9_getSpecProps_empty_or_error_witness :
    getSpecProps sampleVersion.schema =
      .ok [("replicas", .mk "integer" []), ("compositionRef", .mk "string" [])] :=
  (C9_getSpecProps_empty_or_error sampleVersion.schema).2.2.1
    (.mk "object"
      [("spec", .mk "object"
        [("replicas", .mk "integer" []), ("compositionRef", .mk "string" [])])])
    (.mk "object"
      [("replicas", .mk "integer" []), ("compositionRef", .mk "string" [])])
    rfl rfl

/-! ### Error shapes of the version loop -/

theorem getSpecProps_error_shape (v : Option CompositeResourceValidation)
    (e : CrdError) (h : getSpecProps v = .error e) :
    ∃ m, e = .wrap errParseValidation (.new m) := by
  cases v with
  | none => exact Except.noConfusion h
  | some val =>
    obtain ⟨raw⟩ := val
    cases raw with
    | malformed m => exact ⟨m, (Except.error.inj h).symm⟩
    | wellFormed doc =>
      simp only [getSpecProps, jsonUnmarshal] at h
      cases hl : mapLookup doc.properties "spec" with
      | none =>
        rw [hl] at h
        exact Except.noConfusion h
      | some sp =>
        rw [hl] at h
        exact Except.noConfusion h

theorem projectVersions_error_shape (cols : List PrinterColumn)
    (sT stT : PropMap) (vrs : List CompositeResourceDefinitionVersion)
    (pcs : Heap PrinterColumn) (e : CrdError)
    (h : (projectVersions cols sT stT vrs pcs).1 = .error e) :
    ∃ m, e = .wrap errGetSpecProps (.wrap errParseValidation (.new m)) := by
  induction vrs generalizing pcs with
  | nil => exact Except.noConfusion h
  | cons vr rest ih =>
    cases hgs : getSpecProps vr.schema with
    | error e0 =>
      simp only [projectVersions, hgs] at h
      obtain ⟨m, hm⟩ := getSpecProps_error_shape _ _ hgs
      exact ⟨m, by rw [← Except.error.inj h, hm]⟩
    | ok p =>
      simp only [projectVersions, hgs] at h
      rcases hrec : projectVersions cols sT stT rest
        (heapAppend pcs vr.additionalPrinterColumns cols).1 with ⟨res, pcs2⟩
      rw [hrec] at h
      cases res with
      | error e1 =>
        simp only at h
        exact ih _ (by rw [hrec]; exact h)
      | ok vs =>
        simp only at h
        exact Except.noConfusion h

/-- C10: the claim-name dereference in `ForCompositeResourceClaim` is
guarded by validation: validation success implies the claim name set is
present, and the nil-dereference outcome is unreachable for every input
and state. -/
theorem C10_claimNames_deref_guarded (xrd : CompositeResourceDefinition) (st : St) :
    (validateClaimNames xrd = .ok () → xrd.spec.claimNames ≠ none) ∧
    (ForCompositeResourceClaim xrd st).1 ≠ .error errNilClaimNames := by
  have hguard : validateClaimNames xrd = .ok () → xrd.spec.claimNames ≠ none := by
    intro hok hnone
    simp [validateClaimNames, hnone] at hok
  refine ⟨hguard, ?_⟩
  cases hval : validateClaimNames xrd with
  | error e =>
    simp only [ForCompositeResourceClaim, hval]
    intro h
    have := Except.error.inj h
    simp [errNilClaimNames] at this
  | ok u =>
    cases u
    cases hcn : xrd.spec.claimNames with
    | none => exact absurd hcn (hguard hval)
    | some cn =>
      rcases hloop : projectVersions CompositeResourceClaimPrinterColumns
        CompositeResourceClaimSpecProps CompositeResourceStatusProps
        xrd.spec.versions st.pcs with ⟨res, pcs2⟩
      cases res with
      | error e =>
        simp only [ForCompositeResourceClaim, hval, hcn, hloop]
        intro h
        have hee := Except.error.inj h
        obtain ⟨m, hm⟩ := projectVersions_error_shape _ _ _ _ _ _ (by rw [hloop])
        rw [hm] at hee
        simp [errNilClaimNames] at hee
      | ok vs =>
        simp only [ForCompositeResourceClaim, hval, hcn, hloop]
        intro h
        exact Except.noConfusion h

/-- Witness for C10 on the sample input, whose validation succeeds. -/
theorem C10_claimNames_deref_guarded_witness :
    sampleXrd.spec.claimNames ≠ none ∧
    (ForCompositeResourceClaim sampleXrd sampleSt).1 ≠ .error errNilClaimNames :=
  ⟨(C10_claimNames_deref_guarded sampleXrd sampleSt).1 rfl,
   (C10_claimNames_deref_guarded sampleXrd sampleSt).2⟩

/-! ### Success shape of the version loop -/

theorem projectVersions_ok_of_all (cols : List PrinterColumn) (sT stT : PropMap) :
    ∀ (vrs : List CompositeResourceDefinitionVersion) (pcs : Heap PrinterColumn),
    (∀ vr ∈ vrs, ∃ p, getSpecProps vr.schema = .ok p) →
    ∃ vs, (projectVersions cols sT stT vrs pcs).1 = .ok vs := by
  intro vrs
  induction vrs with
  | nil =>
    intro pcs h
    exact ⟨[], rfl⟩
  | cons vr rest ih =>
    intro pcs h
    obtain ⟨p, hp⟩ := h vr (List.mem_cons_self _ _)
    obtain ⟨vs, hvs⟩ := ih (heapAppend pcs vr.additionalPrinterColumns cols).1
      (fun v hv => h v (List.mem_cons_of_mem _ hv))
    refine ⟨⟨vr.name, vr.served, vr.referenceable,
      (heapAppend pcs vr.additionalPrinterColumns cols).2,
      assembleSchema p sT stT, true⟩ :: vs, ?_⟩
    simp only [projectVersions, hp]
    rcases hrec : projectVersions cols sT stT rest
      (heapAppend pcs vr.additionalPrinterColumns cols).1 with ⟨res, pcs2⟩
    rw [hrec] at hvs
    cases res with
    | error e => exact Except.noConfusion hvs
    | ok vs2 =>
      obtain rfl : vs2 = vs := Except.ok.inj hvs
      rfl

theorem projectVersions_ok_fields (cols : List PrinterColumn) (sT stT : PropMap) :
    ∀ (vrs : List CompositeResourceDefinitionVersion) (pcs : Heap PrinterColumn)
      (vs : List CustomResourceDefinitionVersion) (pcs2 : Heap PrinterColumn),
    projectVersions cols sT stT vrs pcs = (.ok vs, pcs2) →
    vs.length = vrs.length ∧
    ∀ i (h1 : i < vrs.length) (h2 : i < vs.length),
      ((vs.get ⟨i, h2⟩).name = (vrs.get ⟨i, h1⟩).name ∧
       (vs.get ⟨i, h2⟩).served = (vrs.get ⟨i, h1⟩).served ∧
       (vs.get ⟨i, h2⟩).storage = (vrs.get ⟨i, h1⟩).referenceable ∧
       (vs.get ⟨i, h2⟩).subresourcesStatus = true) ∧
      ∃ p, getSpecProps (vrs.get ⟨i, h1⟩).schema = .ok p ∧
        (vs.get ⟨i, h2⟩).openAPIV3Schema = assembleSchema p sT stT := by
  intro vrs
  induction vrs with
  | nil =>
    intro pcs vs pcs2 h
    simp only [projectVersions] at h
    injection h with hfst hsnd
    obtain rfl : vs = [] := (Except.ok.inj hfst).symm
    exact ⟨rfl, fun i h1 => absurd h1 (Nat.not_lt_zero i)⟩
  | cons vr rest ih =>
    intro pcs vs pcs2 h
    simp only [projectVersions] at h
    cases hgs : getSpecProps vr.schema with
    | error e =>
      rw [hgs] at h
      injection h with hfst hsnd
      exact Except.noConfusion hfst
    | ok p =>
      rw [hgs] at h
      rcases hrec : projectVersions cols sT stT rest
        (heapAppend pcs vr.additionalPrinterColumns cols).1 with ⟨res, pcs3⟩
      rw [hrec] at h
      cases res with
      | error e =>
        injection h with hfst hsnd
        exact Except.noConfusion hfst
      | ok vs2 =>
        injection h with hfst hsnd
        obtain rfl : vs = _ :: vs2 := (Except.ok.inj hfst).symm
        obtain ⟨ihlen, ihfields⟩ := ih _ _ _ hrec
        refine ⟨by simp [ihlen], ?_⟩
        intro i h1 h2
        cases i with
        | zero => exact ⟨⟨rfl, rfl, rfl, rfl⟩, p, hgs, rfl⟩
        | succ j =>
          have hj1 : j < rest.length := by simpa using h1
          have hj2 : j < vs2.length := by simpa using h2
          exact ihfields j hj1 hj2

theorem ForCompositeResource_ok_inv (xrd : CompositeResourceDefinition) (st : St)
    (crd : CustomResourceDefinition)
    (h : (ForCompositeResource xrd st).1 = .ok crd) :
    ∃ pcs2, projectVersions CompositeResourcePrinterColumns
        CompositeResourceSpecProps CompositeResourceStatusProps
        xrd.spec.versions st.pcs = (.ok crd.spec.versions, pcs2) ∧
      crd.name = xrd.name ∧
      crd.labels = xrd.labels ∧
      crd.annotations = xrd.annotations ∧
      crd.ownerReferences = [ownerReferenceTo xrd] ∧
      crd.spec.scope = .clusterScoped ∧
      crd.spec.group = xrd.spec.group ∧
      crd.spec.names.kind = xrd.spec.names.kind ∧
      crd.spec.names.plural = xrd.spec.names.plural ∧
      crd.spec.names.singular = xrd.spec.names.singular ∧
      crd.spec.names.listKind = xrd.spec.names.listKind := by
  rcases hloop : projectVersions CompositeResourcePrinterColumns
    CompositeResourceSpecProps CompositeResourceStatusProps
    xrd.spec.versions st.pcs with ⟨res, pcs2⟩
  cases res with
  | error e => simp [ForCompositeResource, hloop] at h
  | ok vs =>
    simp only [ForCompositeResource, hloop] at h
    obtain rfl := Except.ok.inj h
    exact ⟨pcs2, rfl, rfl, rfl, rfl, rfl, rfl, rfl, rfl, rfl, rfl, rfl⟩

theorem ForCompositeResourceClaim_ok_inv (xrd : CompositeResourceDefinition)
    (st : St) (crd : CustomResourceDefinition)
    (h : (ForCompositeResourceClaim xrd st).1 = .ok crd) :
    ∃ cn pcs2, validateClaimNames xrd = .ok () ∧
      xrd.spec.claimNames = some cn ∧
      projectVersions CompositeResourceClaimPrinterColumns
        CompositeResourceClaimSpecProps CompositeResourceStatusProps
        xrd.spec.versions st.pcs = (.ok crd.spec.versions, pcs2) ∧
      crd.name = cn.plural ++ "." ++ xrd.spec.group ∧
      crd.labels = xrd.labels ∧
      crd.annotations = xrd.annotations ∧
      crd.ownerReferences = [ownerReferenceTo xrd] ∧
      crd.spec.scope = .namespaceScoped ∧
      crd.spec.group = xrd.spec.group ∧
      crd.spec.names.kind = cn.kind ∧
      crd.spec.names.plural = cn.plural ∧
      crd.spec.names.singular = cn.singular ∧
      crd.spec.names.listKind = cn.listKind := by
  cases hval : validateClaimNames xrd with
  | error e => simp [ForCompositeResourceClaim, hval] at h
  | ok u =>
    cases u
    cases hcn : xrd.spec.claimNames with
    | none => simp [validateClaimNames, hcn] at hval
    | some cn =>
      rcases hloop : projectVersions CompositeResourceClaimPrinterColumns
        CompositeResourceClaimSpecProps CompositeResourceStatusProps
        xrd.spec.versions st.pcs with ⟨res, pcs2⟩
      cases res with
      | error e => simp [ForCompositeResourceClaim, hval, hcn, hloop] at h
      | ok vs =>
        simp only [ForCompositeResourceClaim, hval, hcn, hloop] at h
        obtain rfl := Except.ok.inj h
        exact ⟨cn, pcs2, rfl, rfl, rfl, rfl, rfl, rfl, rfl, rfl, rfl, rfl,
          rfl, rfl, rfl⟩

/-- C7: whenever generation succeeds, output versions match input versions
one to one and in order — same name and served flag, storage taken from
referenceable — with no uniqueness or single-storage check anywhere. -/
theorem C7_versions_one_to_one (xrd : CompositeResourceDefinition) (st : St)
    (crd : CustomResourceDefinition) :
    ((ForCompositeResource xrd st).1 = .ok crd →
      crd.spec.versions.length = xrd.spec.versions.length ∧
      ∀ i (h1 : i < xrd.spec.versions.length) (h2 : i < crd.spec.versions.length),
        (crd.spec.versions.get ⟨i, h2⟩).name =
          (xrd.spec.versions.get ⟨i, h1⟩).name ∧
        (crd.spec.versions.get ⟨i, h2⟩).served =
          (xrd.spec.versions.get ⟨i, h1⟩).served ∧
        (crd.spec.versions.get ⟨i, h2⟩).storage =
          (xrd.spec.versions.get ⟨i, h1⟩).referenceable) ∧
    ((ForCompositeResourceClaim xrd st).1 = .ok crd →
      crd.spec.versions.length = xrd.spec.versions.length ∧
      ∀ i (h1 : i < xrd.spec.versions.length) (h2 : i < crd.spec.versions.length),
        (crd.spec.versions.get ⟨i, h2⟩).name =
          (xrd.spec.versions.get ⟨i, h1⟩).name ∧
        (crd.spec.versions.get ⟨i, h2⟩).served =
          (xrd.spec.versions.get ⟨i, h1⟩).served ∧
        (crd.spec.versions.get ⟨i, h2⟩).storage =
          (xrd.spec.versions.get ⟨i, h1⟩).referenceable) := by
  constructor
  · intro h
    obtain ⟨pcs2, hloop, -⟩ := ForCompositeResource_ok_inv xrd st crd h
    obtain ⟨hlen, hfields⟩ := projectVersions_ok_fields _ _ _ _ _ _ _ hloop
    refine ⟨hlen, fun i h1 h2 => ?_⟩
    obtain ⟨⟨hn, hs, hst, -⟩, -⟩ := hfields i h1 h2
    exact ⟨hn, hs, hst⟩
  · intro h
    obtain ⟨cn, pcs2, -, -, hloop, -⟩ := ForCompositeResourceClaim_ok_inv xrd st crd h
    obtain ⟨hlen, hfields⟩ := projectVersions_ok_fields _ _ _ _ _ _ _ hloop
    refine ⟨hlen, fun i h1 h2 => ?_⟩
    obtain ⟨⟨hn, hs, hst, -⟩, -⟩ := hfields i h1 h2
    exact ⟨hn, hs, hst⟩

/-- Witness for C7 on an input with two versions of the same name, both
referenceable: generation still succeeds and maps them one to one. -/
theorem C7_versions_one_to_one_witness :
    dupOut.spec.versions.length = dupXrd.spec.versions.length ∧
    (dupOut.spec.versions.get ⟨1, by decide⟩).name =
      (dupXrd.spec.versions.get ⟨1, by decide⟩).name ∧
    (dupOut.spec.versions.get ⟨1, by decide⟩).served =
      (dupXrd.spec.versions.get ⟨1, by decide⟩).served ∧
    (dupOut.spec.versions.get ⟨1, by decide⟩).storage =
      (dupXrd.spec.versions.get ⟨1, by decide⟩).referenceable := by
  obtain ⟨hlen, hfields⟩ := (C7_versions_one_to_one dupXrd emptySt dupOut).1 rfl
  exact ⟨hlen, hfields 1 (by decide) (by decide)⟩

/-! ### Abort on parse failure -/

theorem projectVersions_err_of_exists (cols : List PrinterColumn)
    (sT stT : PropMap) :
    ∀ (vrs : List CompositeResourceDefinitionVersion) (pcs : Heap PrinterColumn),
    (∃ vr ∈ vrs, ∃ e0, getSpecProps vr.schema = .error e0) →
    ∃ e, (projectVersions cols sT stT vrs pcs).1 = .error e := by
  intro vrs
  induction vrs with
  | nil =>
    rintro pcs ⟨vr, hmem, -⟩
    exact absurd hmem (List.not_mem_nil _)
  | cons vr rest ih =>
    rintro pcs ⟨v0, hmem, e0, he0⟩
    cases hgs : getSpecProps vr.schema with
    | error e1 =>
      refine ⟨.wrap errGetSpecProps e1, ?_⟩
      simp [projectVersions, hgs]
    | ok p =>
      have hv0 : v0 ∈ rest := by
        rcases List.mem_cons.mp hmem with h1 | h1
        · rw [h1, hgs] at he0
          exact Except.noConfusion he0
        · exact h1
      obtain ⟨e, he⟩ := ih (heapAppend pcs vr.additionalPrinterColumns cols).1
        ⟨v0, hv0, e0, he0⟩
      refine ⟨e, ?_⟩
      simp only [projectVersions, hgs]
      rcases hrec : projectVersions cols sT stT rest
        (heapAppend pcs vr.additionalPrinterColumns cols).1 with ⟨res, pcs3⟩
      rw [hrec] at he
      cases res with
      | error e2 => exact he
      | ok vs => exact Except.noConfusion he

theorem ForCompositeResource_fst_error (xrd : CompositeResourceDefinition)
    (st : St) (e : CrdError)
    (h : (projectVersions CompositeResourcePrinterColumns
      CompositeResourceSpecProps CompositeResourceStatusProps
      xrd.spec.versions st.pcs).1 = .error e) :
    (ForCompositeResource xrd st).1 = .error e := by
  rcases hloop : projectVersions CompositeResourcePrinterColumns
    CompositeResourceSpecProps CompositeResourceStatusProps
    xrd.spec.versions st.pcs with ⟨res, pcs2⟩
  rw [hloop] at h
  cases res with
  | error e1 =>
    obtain rfl : e1 = e := Except.error.inj h
    simp [ForCompositeResource, hloop]
  | ok vs => exact Except.noConfusion h

theorem ForCompositeResourceClaim_fst_error (xrd : CompositeResourceDefinition)
    (st : St) (cn : CustomResourceDefinitionNames) (e : CrdError)
    (hval : validateClaimNames xrd = .ok ())
    (hcn : xrd.spec.claimNames = some cn)
    (h : (projectVersions CompositeResourceClaimPrinterColumns
      CompositeResourceClaimSpecProps CompositeResourceStatusProps
      xrd.spec.versions st.pcs).1 = .error e) :
    (ForCompositeResourceClaim xrd st).1 = .error e := by
  rcases hloop : projectVersions CompositeResourceClaimPrinterColumns
    CompositeResourceClaimSpecProps CompositeResourceStatusProps
    xrd.spec.versions st.pcs with ⟨res, pcs2⟩
  rw [hloop] at h
  cases res with
  | error e1 =>
    obtain rfl : e1 = e := Except.error.inj h
    simp [ForCompositeResourceClaim, hval, hcn, hloop]
  | ok vs => exact Except.noConfusion h

/-- C6 fails on the code as stated for the claim path: on an input whose
claim names are missing and whose only version has a malformed schema,
`ForCompositeResourceClaim` aborts with the claim-name error, not with the
decode failure wrapped in `errGetSpecProps`. -/
theorem C6_counterexample :
    noClaimXrd.spec.versions = [badVersion] ∧
    getSpecProps badVersion.schema =
      .error (.wrap errParseValidation (.new "unexpected end of JSON input")) ∧
    (ForCompositeResourceClaim noClaimXrd emptySt).1 =
      .error (.wrap errInvalidClaimNames (.new errMissingClaimNames)) ∧
    errInvalidClaimNames ≠ errGetSpecProps :=
  ⟨rfl, rfl, rfl, by decide⟩

/-- C6 amended: if any version's raw schema fails to parse, then
`ForCompositeResource` always, and `ForCompositeResourceClaim` provided
claim-name validation succeeds (otherwise the claim path aborts earlier
with the claim-name error), abort the whole call with the decode failure
wrapped in `errGetSpecProps`, returning no generated definition. -/
theorem C6_parse_failure_aborts (xrd : CompositeResourceDefinition) (st : St)
    (h : ∃ vr ∈ xrd.spec.versions, ∃ e0, getSpecProps vr.schema = .error e0) :
    (∃ m, (ForCompositeResource xrd st).1 =
      .error (.wrap errGetSpecProps (.wrap errParseValidation (.new m)))) ∧
    (validateClaimNames xrd = .ok () →
      ∃ m, (ForCompositeResourceClaim xrd st).1 =
        .error (.wrap errGetSpecProps (.wrap errParseValidation (.new m)))) := by
  constructor
  · obtain ⟨e, he⟩ := projectVersions_err_of_exists CompositeResourcePrinterColumns
      CompositeResourceSpecProps CompositeResourceStatusProps
      xrd.spec.versions st.pcs h
    obtain ⟨m, hm⟩ := projectVersions_error_shape _ _ _ _ _ _ he
    exact ⟨m, hm ▸ ForCompositeResource_fst_error xrd st e he⟩
  · intro hval
    cases hcn : xrd.spec.claimNames with
    | none => simp [validateClaimNames, hcn] at hval
    | some cn =>
      obtain ⟨e, he⟩ := projectVersions_err_of_exists
        CompositeResourceClaimPrinterColumns CompositeResourceClaimSpecProps
        CompositeResourceStatusProps xrd.spec.versions st.pcs h
      obtain ⟨m, hm⟩ := projectVersions_error_shape _ _ _ _ _ _ he
      exact ⟨m, hm ▸ ForCompositeResourceClaim_fst_error xrd st cn e hval hcn he⟩

/-- Witness for the amended C6 on a validating input with one malformed
version schema. -/
theorem C6_parse_failure_aborts_witness :
    (∃ m, (ForCompositeResource badSchemaXrd emptySt).1 =
      .error (.wrap errGetSpecProps (.wrap errParseValidation (.new m)))) ∧
    (∃ m, (ForCompositeResourceClaim badSchemaXrd emptySt).1 =
      .error (.wrap errGetSpecProps (.wrap errParseValidation (.new m)))) := by
  have h := C6_parse_failure_aborts badSchemaXrd emptySt
    ⟨badVersion, List.mem_cons_self _ _,
     .wrap errParseValidation (.new "unexpected end of JSON input"), rfl⟩
  exact ⟨h.1, h.2 rfl⟩

/-! ### Claim derivation output -/

/-- C8 fails on the code as stated: an input whose claim names are fully
distinct from the composite names can still make `ForCompositeResourceClaim`
fail, namely when a version's raw schema is malformed. -/
theorem C8_counterexample :
    badSchemaXrd.spec.claimNames = some sampleClaimNames ∧
    sampleClaimNames.kind ≠ sampleNames.kind ∧
    sampleClaimNames.plural ≠ sampleNames.plural ∧
    sampleClaimNames.singular ≠ "" ∧
    sampleClaimNames.singular ≠ sampleNames.singular ∧
    sampleClaimNames.listKind ≠ "" ∧
    sampleClaimNames.listKind ≠ sampleNames.listKind ∧
    (ForCompositeResourceClaim badSchemaXrd emptySt).1 =
      .error (.wrap errGetSpecProps
        (.wrap errParseValidation (.new "unexpected end of JSON input"))) :=
  ⟨rfl, by decide, by decide, by decide, by decide, by decide, by decide, rfl⟩

/-- C8 amended: when the claim name set is present, its kind, plural and
(when non-empty) singular and listKind differ from the composite's, and
additionally every present raw schema is well-formed, the claim derivation
succeeds, the output's identity name is `<claim plural>.<group>`, its scope
is namespace-scoped, and its name set is the claim name set. -/
theorem C8_claim_output_identity (xrd : CompositeResourceDefinition) (st : St)
    (cn : CustomResourceDefinitionNames)
    (hcn : xrd.spec.claimNames = some cn)
    (hk : cn.kind ≠ xrd.spec.names.kind)
    (hp : cn.plural ≠ xrd.spec.names.plural)
    (hs : cn.singular ≠ "" → cn.singular ≠ xrd.spec.names.singular)
    (hl : cn.listKind ≠ "" → cn.listKind ≠ xrd.spec.names.listKind)
    (hparse : ∀ vr ∈ xrd.spec.versions, ∃ p, getSpecProps vr.schema = .ok p) :
    ∃ crd, (ForCompositeResourceClaim xrd st).1 = .ok crd ∧
      crd.name = cn.plural ++ "." ++ xrd.spec.group ∧
      crd.spec.scope = .namespaceScoped ∧
      crd.spec.names.kind = cn.kind ∧
      crd.spec.names.plural = cn.plural ∧
      crd.spec.names.singular = cn.singular ∧
      crd.spec.names.listKind = cn.listKind := by
  have hval : validateClaimNames xrd = .ok () := by
    simp only [validateClaimNames, hcn]
    rw [if_neg hk, if_neg hp, if_neg (fun hx => hs hx.1 hx.2),
      if_neg (fun hx => hl hx.1 hx.2)]
  obtain ⟨vs, hvs⟩ := projectVersions_ok_of_all CompositeResourceClaimPrinterColumns
    CompositeResourceClaimSpecProps CompositeResourceStatusProps
    xrd.spec.versions st.pcs hparse
  rcases hloop : projectVersions CompositeResourceClaimPrinterColumns
    CompositeResourceClaimSpecProps CompositeResourceStatusProps
    xrd.spec.versions st.pcs with ⟨res, pcs2⟩
  rw [hloop] at hvs
  cases res with
  | error e => exact Except.noConfusion hvs
  | ok vs2 =>
    refine ⟨{ name := cn.plural ++ "." ++ xrd.spec.group
              labels := xrd.labels
              annotations := xrd.annotations
              ownerReferences := [ownerReferenceTo xrd]
              spec :=
                { scope := .namespaceScoped
                  group := xrd.spec.group
                  names :=
                    { cn with categories :=
                        (heapAppend st.strs cn.categories [CategoryClaim]).2 }
                  versions := vs2 } },
      ?_, rfl, rfl, rfl, rfl, rfl, rfl⟩
    simp [ForCompositeResourceClaim, hval, hcn, hloop]

/-- Witness for the amended C8 on the sample input. -/
theorem C8_claim_output_identity_witness :
    ∃ crd, (ForCompositeResourceClaim sampleXrd sampleSt).1 = .ok crd ∧
      crd.name = sampleClaimNames.plural ++ "." ++ sampleXrd.spec.group ∧
      crd.spec.scope = .namespaceScoped ∧
      crd.spec.names.kind = sampleClaimNames.kind ∧
      crd.spec.names.plural = sampleClaimNames.plural ∧
      crd.spec.names.singular = sampleClaimNames.singular ∧
      crd.spec.names.listKind = sampleClaimNames.listKind :=
  C8_claim_output_identity sampleXrd sampleSt sampleClaimNames rfl
    (by decide) (by decide) (fun _ => by decide) (fun _ => by decide)
    (fun vr hv => by
      have hh : vr = sampleVersion := List.mem_singleton.mp hv
      rw [hh]
      exact ⟨[("replicas", .mk "integer" []), ("compositionRef", .mk "string" [])],
        rfl⟩)

/-! ### Layered merge onto the base schema -/

theorem oget_none_right {α : Type} (a : Option α) : oget a none = a := by
  cases a <;> rfl

theorem setPropAt_lookup (m : PropMap) (outer k : String) (v : JSONSchemaProps)
    (node : JSONSchemaProps) (h : mapLookup m outer = some node) :
    (mapLookup (setPropAt m outer k v) outer =
      some (.mk node.type (mapInsert node.properties k v))) ∧
    (∀ k2, k2 ≠ outer → mapLookup (setPropAt m outer k v) k2 = mapLookup m k2) := by
  obtain ⟨t, ps⟩ := node
  constructor
  · simp only [setPropAt, h]
    rw [mapLookup_insert]
    simp [JSONSchemaProps.type, JSONSchemaProps.properties]
  · intro k2 hk2
    simp only [setPropAt, h]
    rw [mapLookup_insert, if_neg (fun hh => hk2 hh.symm)]

theorem mergeUnder_lookup (l : PropMap) :
    ∀ (m : PropMap) (outer : String) (node : JSONSchemaProps),
    mapLookup m outer = some node →
    (mapLookup (mergeUnder m outer l) outer =
      some (.mk node.type (mergeLayer node.properties l))) ∧
    (∀ k2, k2 ≠ outer → mapLookup (mergeUnder m outer l) k2 = mapLookup m k2) := by
  induction l with
  | nil =>
    intro m outer node h
    obtain ⟨t, ps⟩ := node
    exact ⟨h, fun k2 _ => rfl⟩
  | cons hd rest ih =>
    intro m outer node h
    obtain ⟨t, ps⟩ := node
    obtain ⟨k1, v1⟩ := hd
    have hset := setPropAt_lookup m outer k1 v1 (.mk t ps) h
    obtain ⟨ih1, ih2⟩ := ih (setPropAt m outer k1 v1) outer
      (.mk t (mapInsert ps k1 v1)) hset.1
    constructor
    · exact ih1
    · intro k2 hk2
      rw [show mergeUnder m outer ((k1, v1) :: rest) =
            mergeUnder (setPropAt m outer k1 v1) outer rest from rfl,
        ih2 k2 hk2, hset.2 k2 hk2]

theorem assembleSchema_lookups (p sT stT : PropMap)
    (hsT : noDupKeys sT = true) (hstT : noDupKeys stT = true) :
    (assembleSchema p sT stT).type = "object" ∧
    (∀ k, mapLookup (propsUnder (assembleSchema p sT stT) "spec") k =
      oget (mapLookup sT k) (mapLookup p.reverse k)) ∧
    (∀ k, mapLookup (propsUnder (assembleSchema p sT stT) "status") k =
      mapLookup stT k) ∧
    (∀ k, k ≠ "spec" → k ≠ "status" →
      mapLookup (assembleSchema p sT stT).properties k = mapLookup BaseProps k) := by
  obtain ⟨h1spec, h1other⟩ :=
    mergeUnder_lookup p BaseProps "spec" (.mk "object" []) rfl
  obtain ⟨h2spec, h2other⟩ :=
    mergeUnder_lookup sT (mergeUnder BaseProps "spec" p) "spec"
      (.mk "object" (mergeLayer [] p)) h1spec
  have h2status :
      mapLookup (mergeUnder (mergeUnder BaseProps "spec" p) "spec" sT) "status" =
        some (.mk "object" []) := by
    rw [h2other "status" (by decide), h1other "status" (by decide)]
    rfl
  obtain ⟨h3status, h3other⟩ :=
    mergeUnder_lookup stT (mergeUnder (mergeUnder BaseProps "spec" p) "spec" sT)
      "status" (.mk "object" []) h2status
  have hlookup_nil : ∀ k, mapLookup ([] : PropMap) k = none := fun k => rfl
  refine ⟨rfl, ?_, ?_, ?_⟩
  · intro k
    have hsp : mapLookup (mergeUnder
        (mergeUnder (mergeUnder BaseProps "spec" p) "spec" sT) "status" stT)
        "spec" = some (.mk "object" (mergeLayer (mergeLayer [] p) sT)) := by
      rw [h3other "spec" (by decide)]
      exact h2spec
    simp only [propsUnder, assembleSchema, JSONSchemaProps.properties]
    rw [hsp, Option.getD_some]
    simp only [JSONSchemaProps.properties]
    rw [mapLookup_mergeLayer, mapLookup_mergeLayer,
      mapLookup_reverse_of_noDup sT k hsT, hlookup_nil k, oget_none_right]
  · intro k
    simp only [propsUnder, assembleSchema, JSONSchemaProps.properties]
    rw [h3status, Option.getD_some]
    simp only [JSONSchemaProps.properties]
    rw [mapLookup_mergeLayer, mapLookup_reverse_of_noDup stT k hstT,
      hlookup_nil k, oget_none_right]
  · intro k hk1 hk2
    simp only [assembleSchema, JSONSchemaProps.properties]
    rw [h3other k hk2, h2other k hk1, h1other k hk1]

/-- C1: every generated version's schema is the base object schema with,
in this fixed order, caller-parsed spec properties merged under `spec`,
the synthesized spec table merged under `spec`, and the synthesized status
table merged under `status`, later layers overwriting earlier ones at
shared keys: a key present in the synthesized spec table resolves to the
synthesized value even when the caller also supplies it, `status` resolves
only through the status table, `spec` only through the spec layers, and
all other base keys are untouched. -/
theorem C1_schema_merge_order (xrd : CompositeResourceDefinition) (st : St)
    (crd : CustomResourceDefinition) :
    ((ForCompositeResource xrd st).1 = .ok crd →
      ∀ i (h1 : i < xrd.spec.versions.length) (h2 : i < crd.spec.versions.length),
      ∃ p, getSpecProps (xrd.spec.versions.get ⟨i, h1⟩).schema = .ok p ∧
        (crd.spec.versions.get ⟨i, h2⟩).openAPIV3Schema.type = "object" ∧
        (∀ k, mapLookup
            (propsUnder (crd.spec.versions.get ⟨i, h2⟩).openAPIV3Schema "spec") k =
          oget (mapLookup CompositeResourceSpecProps k) (mapLookup p.reverse k)) ∧
        (∀ k, mapLookup
            (propsUnder (crd.spec.versions.get ⟨i, h2⟩).openAPIV3Schema "status") k =
          mapLookup CompositeResourceStatusProps k) ∧
        (∀ k, k ≠ "spec" → k ≠ "status" →
          mapLookup (crd.spec.versions.get ⟨i, h2⟩).openAPIV3Schema.properties k =
            mapLookup BaseProps k)) ∧
    ((ForCompositeResourceClaim xrd st).1 = .ok crd →
      ∀ i (h1 : i < xrd.spec.versions.length) (h2 : i < crd.spec.versions.length),
      ∃ p, getSpecProps (xrd.spec.versions.get ⟨i, h1⟩).schema = .ok p ∧
        (crd.spec.versions.get ⟨i, h2⟩).openAPIV3Schema.type = "object" ∧
        (∀ k, mapLookup
            (propsUnder (crd.spec.versions.get ⟨i, h2⟩).openAPIV3Schema "spec") k =
          oget (mapLookup CompositeResourceClaimSpecProps k) (mapLookup p.reverse k)) ∧
        (∀ k, mapLookup
            (propsUnder (crd.spec.versions.get ⟨i, h2⟩).openAPIV3Schema "status") k =
          mapLookup CompositeResourceStatusProps k) ∧
        (∀ k, k ≠ "spec" → k ≠ "status" →
          mapLookup (crd.spec.versions.get ⟨i, h2⟩).openAPIV3Schema.properties k =
            mapLookup BaseProps k)) := by
  constructor
  · intro h i h1 h2
    obtain ⟨pcs2, hloop, -⟩ := ForCompositeResource_ok_inv xrd st crd h
    obtain ⟨-, hfields⟩ := projectVersions_ok_fields _ _ _ _ _ _ _ hloop
    obtain ⟨-, p, hp, hschema⟩ := hfields i h1 h2
    obtain ⟨ht, hspec, hstatus, hbase⟩ := assembleSchema_lookups p
      CompositeResourceSpecProps CompositeResourceStatusProps rfl rfl
    refine ⟨p, hp, ?_, ?_, ?_, ?_⟩
    · rw [hschema]
      exact ht
    · rw [hschema]
      exact hspec
    · rw [hschema]
      exact hstatus
    · rw [hschema]
      exact hbase
  · intro h i h1 h2
    obtain ⟨cn, pcs2, -, -, hloop, -⟩ := ForCompositeResourceClaim_ok_inv xrd st crd h
    obtain ⟨-, hfields⟩ := projectVersions_ok_fields _ _ _ _ _ _ _ hloop
    obtain ⟨-, p, hp, hschema⟩ := hfields i h1 h2
    obtain ⟨ht, hspec, hstatus, hbase⟩ := assembleSchema_lookups p
      CompositeResourceClaimSpecProps CompositeResourceStatusProps rfl rfl
    refine ⟨p, hp, ?_, ?_, ?_, ?_⟩
    · rw [hschema]
      exact ht
    · rw [hschema]
      exact hspec
    · rw [hschema]
      exact hstatus
    · rw [hschema]
      exact hbase

/-- Witness for C1 on the sample input, whose caller schema declares
`replicas` and a colliding `compositionRef`: the synthesized value wins at
the shared key, the caller value survives at its own key, status holds
only status-table keys, and spec keys do not leak into status. -/
theorem C1_schema_merge_order_witness :
    mapLookup (propsUnder
      ((sampleOut.spec.versions.get ⟨0, by decide⟩).openAPIV3Schema) "spec")
      "compositionRef" = some (.mk "object" []) ∧
    mapLookup (propsUnder
      ((sampleOut.spec.versions.get ⟨0, by decide⟩).openAPIV3Schema) "spec")
      "replicas" = some (.mk "integer" []) ∧
    mapLookup (propsUnder
      ((sampleOut.spec.versions.get ⟨0, by decide⟩).openAPIV3Schema) "status")
      "conditions" = some (.mk "array" []) ∧
    mapLookup (propsUnder
      ((sampleOut.spec.versions.get ⟨0, by decide⟩).openAPIV3Schema) "status")
      "replicas" = none ∧
    mapLookup (propsUnder
      ((sampleOut.spec.versions.get ⟨0, by decide⟩).openAPIV3Schema) "spec")
      "conditions" = none := by
  obtain ⟨p, hp, ht, hspec, hstatus, hbase⟩ :=
    (C1_schema_merge_order sampleXrd sampleSt sampleOut).1 rfl 0
      (by decide) (by decide)
  have hlit : getSpecProps (sampleXrd.spec.versions.get ⟨0, by decide⟩).schema =
      .ok [("replicas", .mk "integer" []), ("compositionRef", .mk "string" [])] :=
    rfl
  obtain rfl := Except.ok.inj (hlit.symm.trans hp)
  exact ⟨(hspec "compositionRef").trans rfl, (hspec "replicas").trans rfl,
    (hstatus "conditions").trans rfl, (hstatus "replicas").trans rfl,
    (hspec "conditions").trans rfl⟩

end Ccrd

